import Mathlib

/-!
# Verification of the sparseml compression core

A shallow embedding, in Lean 4, of the parts of the `sparseml` repository
that the specification's claims are about:

* the layer/module resolver (`src/sparseml/utils/pytorch/module.py`:
  `match_targets`, `match_layers_params`);
* the SparseGPT per-layer pruner
  (`src/sparseml/modifiers/obcq/utils/sgpt_wrapper.py`:
  `SGPTModuleWrapper.add_batch`, `SGPTModuleWrapper.fasterprune`);
* the ONNX KV-cache graph transform
  (`src/sparseml/exporters/transforms/add_kv_cache.py`:
  `AddKeyValueCache.transform`).

Python strings are modelled as `List Char`, Python ints as `ℕ`/`ℤ`,
tensors as index functions.  Exact rational (`ℚ`) respectively real (`ℝ`)
arithmetic stands in for floating point: the claims under study are about
counts of exactly-zero entries, update formulas and structural effects,
none of which depend on rounding.
-/

/-! ## Layer/module resolver (`sparseml/utils/pytorch/module.py`) -/

/-- A dotted module / parameter path, as a Python string. -/
abbrev PyName := List Char

/-- The literal Python string `"re:"`. -/
def reMark : PyName := ['r', 'e', ':']

/-- Python's `re.match(pattern, name)` truth value, restricted to
metacharacter-free patterns (the only shape the claims exercise): such a
pattern matches — anchored at the start of `name`, with no requirement to
consume all of `name` — exactly when it is a literal prefix of `name`. -/
def re_match (pattern name : PyName) : Bool :=
  pattern.isPrefixOf name

/-- One iteration of the loop body of `match_targets`: does `target`
match `name`?  `target[:3] == "re:"` selects regex matching on
`target[3:]`, otherwise the names must be equal verbatim. -/
def matchTarget (name target : PyName) : Bool :=
  if target.take 3 = reMark then re_match (target.drop 3) name else name == target

/-- Index of the first target matching `name`, if any (the loop of
`match_targets` returns at the first match). -/
def matchTargetsIdx (name : PyName) (targets : List PyName) : Option ℕ :=
  targets.findIdx? (fun t => matchTarget name t)

/-- `match_targets(name, targets)` for a list of targets: `(True, index)`
for the first matching target, `(False, -1)` if none matches. -/
def match_targets (name : PyName) (targets : List PyName) : Bool × ℤ :=
  match matchTargetsIdx name targets with
  | some i => (true, (i : ℤ))
  | none => (false, -1)

/-- `resolved[name] = ...` on the dict of `match_layers_params`, tracked
at the level of its key list: a repeated key keeps its first position. -/
def dictInsert (k : PyName) (ks : List PyName) : List PyName :=
  if k ∈ ks then ks else ks ++ [k]

/-- `"." in param_name` is false: the parameter belongs directly to the
layer (nested layers' parameters are skipped by `match_layers_params`). -/
def undotted (p : PyName) : Bool :=
  !(p.contains '.')

/-- The module tree, flattened the way `module.named_modules()` yields it:
each entry is a dotted module name together with the parameter names its
`named_parameters()` yields. -/
abbrev ModTree := List (PyName × List PyName)

/-- The target indices that one module marks as found while
`match_layers_params` scans it, in scan order: the layer-name match (only
consulted when layers rather than parameters are requested) followed by
one entry per directly-owned matching parameter name `name.param`. -/
def moduleHits (params : Bool) (targets : List PyName) (m : PyName × List PyName) :
    List ℕ :=
  (if params then [] else (matchTargetsIdx m.1 targets).toList) ++
    (m.2.filter undotted).filterMap
      (fun p => matchTargetsIdx (m.1 ++ '.' :: p) targets)

/-- `targets_found[i] = True` executed for each hit index in turn. -/
def applyHits (found : List Bool) (hits : List ℕ) : List Bool :=
  hits.foldl (fun f i => f.set i true) found

/-- The loop body of `match_layers_params` for one scanned module:
update the `targets_found` flags and, on any hit, store the module under
its name in `resolved`. -/
def processModule (params : Bool) (targets : List PyName)
    (st : List Bool × List PyName) (m : PyName × List PyName) :
    List Bool × List PyName :=
  let hits := moduleHits params targets m
  (applyHits st.1 hits, if hits.isEmpty then st.2 else dictInsert m.1 st.2)

/-- `match_layers_params(targets, module, params)` on a target list (the
reserved-token branches compare the whole specification against a fixed
string and are not taken for a list of targets): scan every module,
then raise `ValueError` listing the targets never marked found, else
return the resolved mapping (tracked by its key list). -/
def match_layers_params (targets : List PyName) (mods : ModTree) (params : Bool) :
    Except (List PyName) (List PyName) :=
  let st := mods.foldl (processModule params targets) (targets.map (fun _ => false), [])
  let missed := (st.1.zip targets).filterMap (fun ft => if ft.1 then none else some ft.2)
  if missed.isEmpty then Except.ok st.2 else Except.error missed

/-- Whether target index `i` is ever the first-matching target for some
scanned name — the condition under which `targets_found[i]` ends up
`True`. -/
def hitTarget (targets : List PyName) (mods : ModTree) (params : Bool) (i : ℕ) : Bool :=
  mods.any (fun m => decide (i ∈ moduleHits params targets m))

/-- The targets `match_layers_params` reports as missing: those whose
index is never a first match, in target order. -/
def missedTargets (targets : List PyName) (mods : ModTree) (params : Bool) :
    List PyName :=
  ((List.range targets.length).zip targets).filterMap
    (fun it => if hitTarget targets mods params it.1 then none else some it.2)

/-- Key list of the resolved mapping returned on success. -/
def resolvedKeys (targets : List PyName) (mods : ModTree) (params : Bool) :
    List PyName :=
  (mods.foldl (processModule params targets) (targets.map (fun _ => false), [])).2

theorem applyHits_append (l : List Bool) (a b : List ℕ) :
    applyHits l (a ++ b) = applyHits (applyHits l a) b :=
  List.foldl_append _ _ a b

theorem length_applyHits (hits : List ℕ) (l : List Bool) :
    (applyHits l hits).length = l.length := by
  induction hits generalizing l with
  | nil => rfl
  | cons i hs ih => simpa [applyHits] using ih (l.set i true)

theorem getElem_applyHits (hits : List ℕ) (l : List Bool) (j : ℕ)
    (hj : j < l.length) (hj' : j < (applyHits l hits).length) :
    (applyHits l hits)[j] = (l[j] || decide (j ∈ hits)) := by
  induction hits generalizing l with
  | nil => simp [applyHits]
  | cons i hs ih =>
    have hstep : applyHits l (i :: hs) = applyHits (l.set i true) hs := rfl
    have hjs : j < (l.set i true).length := by simpa using hj
    have hjs2 : j < (applyHits (l.set i true) hs).length := by
      rw [length_applyHits]; exact hjs
    have hdef : (applyHits l (i :: hs))[j] = (applyHits (l.set i true) hs)[j] := rfl
    rw [hdef, ih (l.set i true) hjs hjs2, List.getElem_set]
    by_cases hij : i = j
    · simp [hij]
    · have hji : ¬ j = i := by omega
      simp [hij, hji]

theorem foldl_processModule_fst (params : Bool) (targets : List PyName)
    (mods : ModTree) (f : List Bool) (r : List PyName) :
    (mods.foldl (processModule params targets) (f, r)).1 =
      applyHits f (mods.flatMap (moduleHits params targets)) := by
  induction mods generalizing f r with
  | nil => simp [applyHits]
  | cons m ms ih =>
    rw [List.foldl_cons, List.flatMap_cons, applyHits_append]
    exact ih (applyHits f (moduleHits params targets m)) _

theorem found_characterization (params : Bool) (targets : List PyName)
    (mods : ModTree) :
    (mods.foldl (processModule params targets)
        (targets.map (fun _ => false), [])).1 =
      (List.range targets.length).map
        (fun i => decide (i ∈ mods.flatMap (moduleHits params targets))) := by
  rw [foldl_processModule_fst]
  apply List.ext_getElem
  · simp [length_applyHits]
  · intro j h₁ h₂
    have hj : j < (targets.map (fun _ : PyName => false)).length := by
      simpa [length_applyHits] using h₁
    rw [getElem_applyHits _ _ j hj h₁]
    simp

theorem hitTarget_eq_mem_flatMap (targets : List PyName) (mods : ModTree)
    (params : Bool) (i : ℕ) :
    hitTarget targets mods params i =
      decide (i ∈ mods.flatMap (moduleHits params targets)) := by
  rw [Bool.eq_iff_iff]
  simp [hitTarget, List.mem_flatMap]

/-- C8 (amended): resolution succeeds exactly when every target index is,
for some scanned layer or parameter name, the first-matching target; it
raises an error naming exactly the targets for which this never happens
(in particular every target matching nothing at all). -/
theorem match_layers_params_missed_characterization
    (targets : List PyName) (mods : ModTree) (params : Bool) :
    match_layers_params targets mods params =
      if missedTargets targets mods params = []
      then Except.ok (resolvedKeys targets mods params)
      else Except.error (missedTargets targets mods params) := by
  have hmissed :
      ((mods.foldl (processModule params targets)
          (targets.map (fun _ => false), [])).1.zip targets).filterMap
        (fun ft => if ft.1 then none else some ft.2) =
      missedTargets targets mods params := by
    rw [found_characterization, List.zip_map_left, List.filterMap_map]
    unfold missedTargets
    apply List.filterMap_congr
    intro it _
    simp only [Function.comp, Prod.map, id]
    rw [hitTarget_eq_mem_flatMap]
  unfold match_layers_params
  simp only [hmissed, resolvedKeys]
  by_cases hcase : missedTargets targets mods params = []
  · simp [hcase]
  · simp [List.isEmpty_iff, hcase]

/-- C8 (counterexample): with targets `["re:a", "a"]` on a tree holding a
layer named `a`, both targets match that layer, yet resolution raises an
error claiming `a` was not found — the exact-name target is shadowed by
the regex target, which matches first. -/
theorem match_layers_params_shadowed_target :
    matchTarget ['a'] (reMark ++ ['a']) = true ∧
      matchTarget ['a'] ['a'] = true ∧
      match_layers_params [reMark ++ ['a'], ['a']] [([], []), (['a'], [])] false =
        Except.error [['a']] :=
  ⟨by decide, by decide, by rfl⟩

/-- C10: for a `re:`-prefixed target, matching at the start of the dotted
layer name suffices — the first (and only) target of the list matches. -/
theorem match_targets_re_prefix_semantics (pat name : PyName)
    (h : re_match pat name = true) :
    match_targets name [reMark ++ pat] = (true, 0) := by
  have htake : (reMark ++ pat).take 3 = reMark := by
    simp [reMark]
  have hdrop : (reMark ++ pat).drop 3 = pat := by
    simp [reMark]
  have hmt : matchTarget name (reMark ++ pat) = true := by
    rw [matchTarget, if_pos htake, hdrop]
    exact h
  simp [match_targets, matchTargetsIdx, List.findIdx?, hmt]

/-- Witness for C10 at the spec's own example: the target `re:foo`
matches the layer named `foobar.baz` although the pattern matches only a
strict prefix of that name. -/
theorem match_targets_re_prefix_semantics_witness :
    re_match "foo".data "foobar.baz".data = true ∧
      "foo".data ≠ "foobar.baz".data ∧
      match_targets "foobar.baz".data [reMark ++ "foo".data] = (true, 0) :=
  ⟨by decide, by decide,
    match_targets_re_prefix_semantics "foo".data "foobar.baz".data (by decide)⟩

/-! ## SparseGPT statistics accumulation (`SGPTModuleWrapper.add_batch`)

The wrapper stores a running square statistic `H` of size
`columns × columns` and an integer sample counter `nsamples`; matrices
are modelled as unbounded index functions and torch float arithmetic as
exact real arithmetic (`math.sqrt` forces `ℝ` here). -/

/-- The buffers of one `SGPTModuleWrapper`: the Hessian-like accumulator
`H` (a `columns × columns` tensor, modelled as an index function) and the
running sample count. -/
structure SGPTAccum where
  H : ℕ → ℕ → ℝ
  nsamples : ℕ

/-- A layer input handed to `add_batch`: a 2-dimensional tensor of shape
`(k, features)` or a 3-dimensional tensor of shape `(b, k, features)`. -/
inductive SGPTInput where
  | two (k : ℕ) (x : ℕ → ℕ → ℝ)
  | three (b k : ℕ) (x : ℕ → ℕ → ℕ → ℝ)

/-- `tmp = inp.shape[0]` after the 2-dimensional case is unsqueezed to
`(1, k, features)`: the quantity added to `nsamples`. -/
def SGPTInput.batchDim : SGPTInput → ℕ
  | .two _ _ => 1
  | .three b _ _ => b

/-- Number of rows of `inp.reshape((-1, inp.shape[-1]))`, i.e. the number
of sample columns after transposition. -/
def SGPTInput.sampleCount : SGPTInput → ℕ
  | .two k _ => k
  | .three b k _ => b * k

/-- The input of a `nn.Linear` / `transformers.Conv1D` layer after
`add_batch` reshapes it to 2 dimensions and transposes it: entry
`(feature, sample)`. -/
def SGPTInput.reshaped : SGPTInput → (ℕ → ℕ → ℝ)
  | .two _ x => fun f s => x s f
  | .three _ k x => fun f s => x (s / k) (s % k) f

/-- `SGPTModuleWrapper.add_batch(inp, out)` for a `nn.Linear` or
`transformers.Conv1D` layer (the `isinstance` branch taken; `out` is
unused by the source): rescale `H` by `nsamples / (nsamples + tmp)`,
advance the counter, scale the reshaped input by
`sqrt(2 / nsamples)` and add its outer product with itself to `H`. -/
noncomputable def add_batch (st : SGPTAccum) (inp : SGPTInput) : SGPTAccum :=
  let tmp := inp.batchDim
  let X := inp.reshaped
  let Hscaled := fun i j => ((st.nsamples : ℝ) / ((st.nsamples : ℝ) + (tmp : ℝ))) * st.H i j
  let n' := st.nsamples + tmp
  let Xs := fun f s => Real.sqrt (2 / (n' : ℝ)) * X f s
  { H := fun i j => Hscaled i j + ∑ s ∈ Finset.range inp.sampleCount, Xs i s * Xs j s,
    nsamples := n' }

/-- C3: `add_batch` realizes the streaming second-moment update — the old
accumulator is rescaled by `n/(n+batch)`, the count becomes `n+batch`,
and the `sqrt(2/(n+batch))`-scaled reshaped batch enters through its
outer product with itself, i.e. `2/(n+batch)` times the raw outer
product. -/
theorem add_batch_streaming_update (st : SGPTAccum) (inp : SGPTInput) :
    (add_batch st inp).nsamples = st.nsamples + inp.batchDim ∧
      ∀ i j, (add_batch st inp).H i j =
        ((st.nsamples : ℝ) / ((st.nsamples : ℝ) + (inp.batchDim : ℝ))) * st.H i j +
          (2 / ((st.nsamples : ℝ) + (inp.batchDim : ℝ))) *
            ∑ s ∈ Finset.range inp.sampleCount, inp.reshaped i s * inp.reshaped j s := by
  refine ⟨rfl, fun i j => ?_⟩
  have hnn : (0 : ℝ) ≤ 2 / ((st.nsamples + inp.batchDim : ℕ) : ℝ) := by positivity
  have hsq : Real.sqrt (2 / ((st.nsamples + inp.batchDim : ℕ) : ℝ)) *
      Real.sqrt (2 / ((st.nsamples + inp.batchDim : ℕ) : ℝ)) =
      2 / ((st.nsamples + inp.batchDim : ℕ) : ℝ) := Real.mul_self_sqrt hnn
  show ((st.nsamples : ℝ) / ((st.nsamples : ℝ) + (inp.batchDim : ℝ))) * st.H i j +
      ∑ s ∈ Finset.range inp.sampleCount,
        (Real.sqrt (2 / ((st.nsamples + inp.batchDim : ℕ) : ℝ)) * inp.reshaped i s) *
          (Real.sqrt (2 / ((st.nsamples + inp.batchDim : ℕ) : ℝ)) * inp.reshaped j s) = _
  rw [Finset.mul_sum]
  congr 1
  refine Finset.sum_congr rfl fun s _ => ?_
  have hre : Real.sqrt (2 / ((st.nsamples + inp.batchDim : ℕ) : ℝ)) * inp.reshaped i s *
      (Real.sqrt (2 / ((st.nsamples + inp.batchDim : ℕ) : ℝ)) * inp.reshaped j s) =
      (Real.sqrt (2 / ((st.nsamples + inp.batchDim : ℕ) : ℝ)) *
        Real.sqrt (2 / ((st.nsamples + inp.batchDim : ℕ) : ℝ))) *
        (inp.reshaped i s * inp.reshaped j s) := by ring
  rw [hre, hsq]
  push_cast
  ring

/-- C9: a 2-dimensional input of shape `(k, features)` advances the
sample counter by exactly `1` whatever `k` is — the increment is read
from dimension 0 after the unsqueeze — while a 3-dimensional input
advances it by its leading batch dimension `b`. -/
theorem add_batch_two_dim_counts_one (st : SGPTAccum) (k b : ℕ)
    (x : ℕ → ℕ → ℝ) (y : ℕ → ℕ → ℕ → ℝ) :
    (add_batch st (SGPTInput.two k x)).nsamples = st.nsamples + 1 ∧
      (add_batch st (SGPTInput.three b k y)).nsamples = st.nsamples + b :=
  ⟨rfl, rfl⟩

/-! ## SparseGPT compression (`SGPTModuleWrapper.fasterprune`)

The method is embedded over exact rationals for a layer without
`weight_fake_quant` (the `hasattr` branch is not taken, so no
fake-quantization round trip occurs).  The `Losses` accumulator, the
timing calls and the log lines have no effect on the weights and are not
modelled.  `torch.linalg.cholesky / torch.cholesky_inverse /
torch.linalg.cholesky(·, upper=True)` are external library routines, not
code of this repository: their composition enters as an explicit
`pipeline` parameter mapping the damped statistic to the inverse factor
`Hinv`, and every theorem below is quantified over it — the properties at
stake depend only on how `fasterprune` uses `Hinv`, not on its numeric
content.  `torch.sort` (ascending, values) is realized by
`List.insertionSort (· ≤ ·)`; `torch.topk(·, largest=False).indices` by
an index sort that breaks score ties towards the lower index (torch
leaves tie order unspecified; the claims are tie-independent). -/

/-- A torch 2-d tensor over exact rationals, as an index function; the
live extent is carried separately, as `rows`/`columns` are in the source. -/
abbrev QMat := ℕ → ℕ → ℚ

/-- `H[dead, dead] = 1`: each zero diagonal entry of the `c × c`
statistic (a dead input feature) is replaced by `1`; nothing else moves. -/
def sgptNeutralizeH (H : QMat) (c : ℕ) : QMat :=
  fun a b => if a = b ∧ a < c ∧ H a a = 0 then 1 else H a b

/-- `W[:, dead] = 0`: weight columns of dead input features are zeroed. -/
def sgptNeutralizeW (H W : QMat) (c : ℕ) : QMat :=
  fun i j => if j < c ∧ H j j = 0 then 0 else W i j

/-- `damp = percdamp * torch.mean(torch.diag(self.H))`, computed after
the dead diagonal entries were set to `1`. -/
def sgptDamp (H : QMat) (c : ℕ) (percdamp : ℚ) : ℚ :=
  percdamp * ((∑ a ∈ Finset.range c, sgptNeutralizeH H c a a) / (c : ℚ))

/-- `self.H[diag, diag] += damp`: the damped statistic handed to the
Cholesky pipeline. -/
def sgptDampedH (H : QMat) (c : ℕ) (percdamp : ℚ) : QMat :=
  fun a b =>
    if a = b ∧ a < c then sgptNeutralizeH H c a b + sgptDamp H c percdamp
    else sgptNeutralizeH H c a b

/-- The inverse-factor matrix `Hinv`: the three-step torch factorization
applied to the damped statistic, with the factorization itself abstracted
as `pipeline`. -/
def sgptHinv (pipeline : QMat → QMat) (H : QMat) (c : ℕ) (percdamp : ℚ) : QMat :=
  pipeline (sgptDampedH H c percdamp)

/-- The per-block loop state: the working copy `W1` of the block's
columns, the committed columns `Q1`, the propagated errors `Err1` and the
pruning mask `mask1` (all local column indices). -/
structure BState where
  W1 : QMat
  Q1 : QMat
  Err1 : QMat
  mask1 : ℕ → ℕ → Bool

/-- The magnitude-over-curvature score `W1**2 / diag(Hinv1)**2` at a
local column. -/
def sgptScoreAt (W1 Hinv1 : QMat) (rr j : ℕ) : ℚ :=
  W1 rr j ^ 2 / (Hinv1 j j) ^ 2

/-- `tmp.flatten()` for the unstructured branch: the block's score
matrix, row-major. -/
def sgptFlatScores (W1 Hinv1 : QMat) (r cnt : ℕ) : List ℚ :=
  (List.range r).flatMap (fun rr => (List.range cnt).map (sgptScoreAt W1 Hinv1 rr))

/-- `torch.sort(tmp.flatten())[0][int(tmp.numel() * sparsity)]`: the
pruning threshold of one block.  `int(...)` truncates; the claims only
exercise `0 ≤ sparsity < 1`, where it agrees with `⌊·⌋.toNat` and the
index stays in range (out of range, the source raises `IndexError`;
`getD` supplies a junk `0` never relied upon). -/
def sgptThresh (W1 Hinv1 : QMat) (r cnt : ℕ) (sparsity : ℚ) : ℚ :=
  (List.insertionSort (· ≤ ·) (sgptFlatScores W1 Hinv1 r cnt)).getD
    (⌊((r * cnt : ℕ) : ℚ) * sparsity⌋.toNat) 0

/-- The block's initial mask: for `prunen == 0` the threshold mask
`tmp <= thresh` (the outer `mask` variable is never assigned in the
source, so the block always recomputes it); for `prunen > 0` all-false. -/
def initMask (W1 Hinv1 : QMat) (r cnt : ℕ) (sparsity : ℚ) (prunen : ℕ) :
    ℕ → ℕ → Bool :=
  if prunen = 0 then
    fun rr j => decide (sgptScoreAt W1 Hinv1 rr j ≤ sgptThresh W1 Hinv1 r cnt sparsity)
  else fun _ _ => false

/-- Indices of the `k` smallest scores among `0, …, width-1`
(`torch.topk(…, largest=False).indices`, ties to the lower index). -/
def topkSmallest (k width : ℕ) (score : ℕ → ℚ) : List ℕ :=
  (List.insertionSort
    (fun a b => score a < score b ∨ (score a = score b ∧ a ≤ b))
    (List.range width)).take k

/-- The scores `W1[:, i:(i+prunem)]**2 / diag(Hinv1)[i:(i+prunem)]**2` of
one N:M group, per row, as a function of the offset into the group. -/
def groupScore (W1 Hinv1 : QMat) (rr i : ℕ) : ℕ → ℚ :=
  fun u => sgptScoreAt W1 Hinv1 rr (i + u)

/-- `mask1.scatter_(1, i + torch.topk(tmp, prunen, largest=False)[1],
True)` at a group start `i`: the selected columns become `True`, the rest
keep their value.  The slice width is clipped at the block end, as
`W1[:, i:(i+prunem)]` is. -/
def scatterStep (Hinv1 : QMat) (cnt prunen prunem i : ℕ) (st : BState) :
    ℕ → ℕ → Bool :=
  fun rr j =>
    if j ∈ (topkSmallest prunen (min (i + prunem) cnt - i)
        (groupScore st.W1 Hinv1 rr i)).map (i + ·)
    then true else st.mask1 rr j

/-- One iteration of the per-column loop at local column `i`: optional
N:M scatter at a group start, commit of the (masked) column into `Q1`,
and the rank-1 error propagation `W1[:, i:] -= err1 ⬝ Hinv1[i, i:]`. -/
def innerStep (Hinv1 : QMat) (cnt prunen prunem i : ℕ) (st : BState) : BState :=
  let mask' :=
    if prunen ≠ 0 ∧ i % prunem = 0 then scatterStep Hinv1 cnt prunen prunem i st
    else st.mask1
  let w := fun rr => st.W1 rr i
  let d := Hinv1 i i
  let q := fun rr => if mask' rr i then 0 else w rr
  let err := fun rr => (w rr - q rr) / d
  { W1 := fun rr j => if i ≤ j ∧ j < cnt then st.W1 rr j - err rr * Hinv1 i j else st.W1 rr j
    Q1 := fun rr j => if j = i then q rr else st.Q1 rr j
    Err1 := fun rr j => if j = i then err rr else st.Err1 rr j
    mask1 := mask' }

/-- `for i in range(count)` iterated `k` times. -/
def loopA (Hinv1 : QMat) (cnt prunen prunem : ℕ) (st0 : BState) : ℕ → BState
  | 0 => st0
  | k + 1 => innerStep Hinv1 cnt prunen prunem k (loopA Hinv1 cnt prunen prunem st0 k)

/-- The block's local `Hinv1 = Hinv[i1:i2, i1:i2]`. -/
def blockHinv1 (Hinv : QMat) (i1 : ℕ) : QMat :=
  fun a b => Hinv (i1 + a) (i1 + b)

/-- The block's initial state: `W1 = W[:, i1:i2].clone()`, zero `Q1` and
`Err1`, and the branch-dependent initial mask. -/
def blockInit (Hinv : QMat) (r c blocksize : ℕ) (sparsity : ℚ) (prunen : ℕ)
    (Wcur : QMat) (i1 : ℕ) : BState :=
  let cnt := min (i1 + blocksize) c - i1
  let W10 : QMat := fun rr j => Wcur rr (i1 + j)
  { W1 := W10
    Q1 := fun _ _ => 0
    Err1 := fun _ _ => 0
    mask1 := initMask W10 (blockHinv1 Hinv i1) r cnt sparsity prunen }

/-- The block's state after its full column loop. -/
def blockFinal (Hinv : QMat) (r c blocksize : ℕ) (sparsity : ℚ)
    (prunen prunem : ℕ) (Wcur : QMat) (i1 : ℕ) : BState :=
  loopA (blockHinv1 Hinv i1) (min (i1 + blocksize) c - i1) prunen prunem
    (blockInit Hinv r c blocksize sparsity prunen Wcur i1) (min (i1 + blocksize) c - i1)

/-- One outer-loop iteration: commit `W[:, i1:i2] = Q1` and propagate
`W[:, i2:] -= Err1 ⬝ Hinv[i1:i2, i2:]`; earlier columns are untouched. -/
def blockUpdate (Hinv : QMat) (r c blocksize : ℕ) (sparsity : ℚ)
    (prunen prunem : ℕ) (Wcur : QMat) (i1 : ℕ) : QMat :=
  fun rr j =>
    if i1 ≤ j ∧ j < min (i1 + blocksize) c then
      (blockFinal Hinv r c blocksize sparsity prunen prunem Wcur i1).Q1 rr (j - i1)
    else if min (i1 + blocksize) c ≤ j ∧ j < c then
      Wcur rr j -
        ∑ u ∈ Finset.range (min (i1 + blocksize) c - i1),
          (blockFinal Hinv r c blocksize sparsity prunen prunem Wcur i1).Err1 rr u *
            Hinv (i1 + u) j
    else Wcur rr j

/-- `for i1 in range(0, self.columns, blocksize)` run for the first `q`
blocks. -/
def runBlocks (Hinv : QMat) (r c blocksize : ℕ) (sparsity : ℚ)
    (prunen prunem : ℕ) (W0 : QMat) : ℕ → QMat
  | 0 => W0
  | q + 1 =>
    blockUpdate Hinv r c blocksize sparsity prunen prunem
      (runBlocks Hinv r c blocksize sparsity prunen prunem W0 q) (q * blocksize)

/-- Number of iterations of `range(0, c, blocksize)`. -/
def numBlocks (c blocksize : ℕ) : ℕ :=
  (c + blocksize - 1) / blocksize

/-- `SGPTModuleWrapper.fasterprune(sparsity, prunen, prunem, blocksize,
percdamp)` on an `r × c` weight tensor `W` and accumulated statistic `H`:
dead-feature neutralization and damping, the (abstracted) factorization,
then the block-wise greedy compression.  The result is the updated weight
tensor (the final cast back to the layer's storage dtype is the identity
in this exact-arithmetic model). -/
def fasterprune (pipeline : QMat → QMat) (r c : ℕ) (W H : QMat)
    (sparsity : ℚ) (prunen prunem blocksize : ℕ) (percdamp : ℚ) : QMat :=
  runBlocks (sgptHinv pipeline H c percdamp) r c blocksize sparsity prunen prunem
    (sgptNeutralizeW H W c) (numBlocks c blocksize)

/-- Zero entries of `out` in rows below `r` and block columns
`i1, …, i1+cnt-1`, counted per row and summed. -/
def blockZeroCount (out : QMat) (r i1 cnt : ℕ) : ℕ :=
  ∑ rr ∈ Finset.range r, ((Finset.range cnt).filter (fun j => out rr (i1 + j) = 0)).card

/-- C7: before the factorization runs, every zero diagonal entry of the
statistic is replaced by `1` and its weight column zeroed, and then
`percdamp` times the mean of the neutralized diagonal is added to every
diagonal entry of the statistic handed to the factorization. -/
theorem fasterprune_dead_and_damping (H W : QMat) (c : ℕ) (percdamp : ℚ)
    (j : ℕ) (hj : j < c) :
    sgptDampedH H c percdamp j j =
        (if H j j = 0 then 1 else H j j) +
          percdamp *
            ((∑ a ∈ Finset.range c, (if H a a = 0 then 1 else H a a)) / (c : ℚ)) ∧
      (H j j = 0 → ∀ i, sgptNeutralizeW H W c i j = 0) := by
  constructor
  · have hsum : ∑ a ∈ Finset.range c, sgptNeutralizeH H c a a
        = ∑ a ∈ Finset.range c, (if H a a = 0 then 1 else H a a) := by
      refine Finset.sum_congr rfl fun a ha => ?_
      have hac : a < c := Finset.mem_range.mp ha
      by_cases h0 : H a a = 0
      · simp [sgptNeutralizeH, hac, h0]
      · simp [sgptNeutralizeH, hac, h0]
    have hdiag : sgptDampedH H c percdamp j j =
        sgptNeutralizeH H c j j + sgptDamp H c percdamp := by
      simp [sgptDampedH, hj]
    rw [hdiag, sgptDamp, hsum]
    by_cases h0 : H j j = 0
    · simp [sgptNeutralizeH, hj, h0]
    · simp [sgptNeutralizeH, hj, h0]
  · intro h0 i
    simp [sgptNeutralizeW, hj, h0]

/-- The 2×2 statistic `diag(0, 3)`: feature 0 is dead. -/
def cH7 : QMat := fun a b => if a = b ∧ a = 1 then 3 else 0

/-- A constant 2×2 weight tensor. -/
def cW7 : QMat := fun _ _ => 7

/-- Witness for C7 on `H = diag(0, 3)` with `percdamp = 1/100`. -/
theorem fasterprune_dead_and_damping_witness :
    sgptDampedH cH7 2 (1/100) 0 0 =
        (if cH7 0 0 = 0 then 1 else cH7 0 0) +
          (1/100) *
            ((∑ a ∈ Finset.range 2, (if cH7 a a = 0 then 1 else cH7 a a)) / ((2 : ℕ) : ℚ)) ∧
      (cH7 0 0 = 0 → ∀ i, sgptNeutralizeW cH7 cW7 2 i 0 = 0) :=
  fasterprune_dead_and_damping cH7 cW7 2 (1/100) 0 (by norm_num)

theorem blockStart_lt {c B t : ℕ} (hB : 0 < B) (ht : t < numBlocks c B) :
    t * B < c := by
  unfold numBlocks at ht
  have h2 : (t + 1) * B ≤ c + B - 1 := (Nat.le_div_iff_mul_le hB).mp ht
  have h3 : t * B + B ≤ c + B - 1 := by
    calc t * B + B = (t + 1) * B := by ring
    _ ≤ c + B - 1 := h2
  omega

theorem blockUpdate_preserve_left (Hinv : QMat) (r c B : ℕ) (s : ℚ)
    (pn pm : ℕ) (Wcur : QMat) (i1 j rr : ℕ) (hj : j < i1) (_hi1 : i1 < c) :
    blockUpdate Hinv r c B s pn pm Wcur i1 rr j = Wcur rr j := by
  unfold blockUpdate
  have h1 : ¬ (i1 ≤ j ∧ j < min (i1 + B) c) := by omega
  have h2 : ¬ (min (i1 + B) c ≤ j ∧ j < c) := by omega
  rw [if_neg h1, if_neg h2]

/-- Once block `t` has run, the columns it committed are final: every
later block starts past them. -/
theorem runBlocks_stable (Hinv : QMat) (r c B : ℕ) (s : ℚ) (pn pm : ℕ)
    (W0 : QMat) (hB : 0 < B) (t j rr : ℕ) (hj : j < min (t * B + B) c) :
    ∀ d, t + 1 + d ≤ numBlocks c B →
      runBlocks Hinv r c B s pn pm W0 (t + 1 + d) rr j =
        runBlocks Hinv r c B s pn pm W0 (t + 1) rr j := by
  intro d
  induction d with
  | zero => intro _; rfl
  | succ d ih =>
    intro hd
    have hstep : runBlocks Hinv r c B s pn pm W0 (t + 1 + (d + 1)) rr j =
        blockUpdate Hinv r c B s pn pm
          (runBlocks Hinv r c B s pn pm W0 (t + 1 + d)) ((t + 1 + d) * B) rr j := rfl
    have hlt : (t + 1 + d) * B < c := blockStart_lt hB (by omega)
    have hjlt : j < (t + 1 + d) * B := by
      have : (t + 1) * B ≤ (t + 1 + d) * B := Nat.mul_le_mul_right B (by omega)
      have h1 : t * B + B = (t + 1) * B := by ring
      omega
    rw [hstep, blockUpdate_preserve_left Hinv r c B s pn pm _ _ _ _ hjlt hlt]
    exact ih (by omega)

/-- The final weight at a column of block `t` is the `Q1` entry that the
block's own column loop committed there. -/
theorem fasterprune_block_out (P : QMat → QMat) (r c : ℕ) (W H : QMat)
    (s : ℚ) (pn pm B : ℕ) (pd : ℚ) (hB : 0 < B) (t : ℕ)
    (ht : t < numBlocks c B) (j rr : ℕ) (hj : j < min (t * B + B) c - t * B) :
    fasterprune P r c W H s pn pm B pd rr (t * B + j) =
      (blockFinal (sgptHinv P H c pd) r c B s pn pm
        (runBlocks (sgptHinv P H c pd) r c B s pn pm (sgptNeutralizeW H W c) t)
        (t * B)).Q1 rr j := by
  have hcol : t * B + j < min (t * B + B) c := by omega
  have hrw : fasterprune P r c W H s pn pm B pd rr (t * B + j) =
      runBlocks (sgptHinv P H c pd) r c B s pn pm (sgptNeutralizeW H W c)
        (t + 1) rr (t * B + j) := by
    have hnb : t + 1 + (numBlocks c B - (t + 1)) = numBlocks c B := by omega
    have := runBlocks_stable (sgptHinv P H c pd) r c B s pn pm
      (sgptNeutralizeW H W c) hB t (t * B + j) rr hcol
      (numBlocks c B - (t + 1)) (by omega)
    unfold fasterprune
    rw [← hnb, this]
  rw [hrw]
  have hstep : runBlocks (sgptHinv P H c pd) r c B s pn pm (sgptNeutralizeW H W c)
      (t + 1) rr (t * B + j) =
      blockUpdate (sgptHinv P H c pd) r c B s pn pm
        (runBlocks (sgptHinv P H c pd) r c B s pn pm (sgptNeutralizeW H W c) t)
        (t * B) rr (t * B + j) := rfl
  rw [hstep]
  unfold blockUpdate
  rw [if_pos ⟨Nat.le_add_right _ _, hcol⟩]
  congr 1
  omega

theorem innerStep_Q1_ne (Hinv1 : QMat) (cnt pn pm i : ℕ) (st : BState)
    (rr j : ℕ) (hj : j ≠ i) :
    (innerStep Hinv1 cnt pn pm i st).Q1 rr j = st.Q1 rr j := by
  simp [innerStep, hj]

theorem loopA_Q1_stable (Hinv1 : QMat) (cnt pn pm : ℕ) (st0 : BState)
    (j rr : ℕ) : ∀ q, j < q →
      (loopA Hinv1 cnt pn pm st0 q).Q1 rr j =
        (loopA Hinv1 cnt pn pm st0 (j + 1)).Q1 rr j := by
  intro q
  induction q with
  | zero => omega
  | succ q ih =>
    intro h
    rcases Nat.lt_or_ge j q with hlt | hge
    · have hstep : loopA Hinv1 cnt pn pm st0 (q + 1) =
          innerStep Hinv1 cnt pn pm q (loopA Hinv1 cnt pn pm st0 q) := rfl
      rw [hstep, innerStep_Q1_ne Hinv1 cnt pn pm q _ rr j (by omega)]
      exact ih hlt
    · have : j = q := by omega
      subst this
      rfl

theorem loopA_Q1_self (Hinv1 : QMat) (cnt pn pm : ℕ) (st0 : BState)
    (j rr : ℕ) :
    (loopA Hinv1 cnt pn pm st0 (j + 1)).Q1 rr j =
      (if (loopA Hinv1 cnt pn pm st0 (j + 1)).mask1 rr j then 0
       else (loopA Hinv1 cnt pn pm st0 j).W1 rr j) := by
  show (innerStep Hinv1 cnt pn pm j (loopA Hinv1 cnt pn pm st0 j)).Q1 rr j =
    (if (innerStep Hinv1 cnt pn pm j (loopA Hinv1 cnt pn pm st0 j)).mask1 rr j then 0
     else (loopA Hinv1 cnt pn pm st0 j).W1 rr j)
  simp [innerStep]

theorem innerStep_mask_no_scatter (Hinv1 : QMat) (cnt pn pm i : ℕ)
    (st : BState) (h : ¬ (pn ≠ 0 ∧ i % pm = 0)) :
    (innerStep Hinv1 cnt pn pm i st).mask1 = st.mask1 := by
  simp [innerStep, h]

theorem loopA_mask_const_zero (Hinv1 : QMat) (cnt pm : ℕ) (st0 : BState) :
    ∀ q, (loopA Hinv1 cnt 0 pm st0 q).mask1 = st0.mask1 := by
  intro q
  induction q with
  | zero => rfl
  | succ q ih =>
    have hstep : loopA Hinv1 cnt 0 pm st0 (q + 1) =
        innerStep Hinv1 cnt 0 pm q (loopA Hinv1 cnt 0 pm st0 q) := rfl
    rw [hstep, innerStep_mask_no_scatter Hinv1 cnt 0 pm q _ (by simp)]
    exact ih

theorem loopA_Q1_zero_of_mask (Hinv1 : QMat) (cnt pm : ℕ) (st0 : BState)
    (rr j : ℕ) (hj : j < cnt) (hm : st0.mask1 rr j = true) :
    (loopA Hinv1 cnt 0 pm st0 cnt).Q1 rr j = 0 := by
  rw [loopA_Q1_stable Hinv1 cnt 0 pm st0 j rr cnt hj, loopA_Q1_self,
    loopA_mask_const_zero, hm]
  simp

theorem card_filter_range_eq_countP (p : ℕ → Prop) [DecidablePred p] :
    ∀ n, ((Finset.range n).filter p).card = (List.range n).countP (fun j => decide (p j))
  | 0 => rfl
  | n + 1 => by
    rw [Finset.range_succ, Finset.filter_insert, List.range_succ, List.countP_append,
      ← card_filter_range_eq_countP p n]
    by_cases h : p n
    · rw [if_pos h, Finset.card_insert_of_not_mem (by simp)]
      simp [h, List.countP_cons]
    · rw [if_neg h]
      simp [h, List.countP_cons]

theorem finset_sum_range_eq_list_sum (g : ℕ → ℕ) :
    ∀ n, ∑ rr ∈ Finset.range n, g rr = ((List.range n).map g).sum
  | 0 => rfl
  | n + 1 => by
    rw [Finset.sum_range_succ, List.range_succ, List.map_append, List.sum_append,
      finset_sum_range_eq_list_sum g n]
    simp

theorem sgptFlatScores_length (W1 Hinv1 : QMat) (r cnt : ℕ) :
    (sgptFlatScores W1 Hinv1 r cnt).length = r * cnt := by
  unfold sgptFlatScores
  rw [List.length_flatMap]
  have hmap : (List.range r).map (List.length ∘ fun rr => (List.range cnt).map (sgptScoreAt W1 Hinv1 rr)) =
      List.replicate r cnt := by
    have : (List.length ∘ fun rr : ℕ => (List.range cnt).map (sgptScoreAt W1 Hinv1 rr)) =
        Function.const ℕ cnt := by
      funext rr
      simp [Function.comp]
    rw [this, List.map_const, List.length_range]
  rw [hmap, List.sum_replicate, smul_eq_mul]

/-- At least `k + 1` list entries lie at or below the `k`-th entry of the
ascending sort of the list. -/
theorem countP_le_sorted_thresh (l : List ℚ) (k : ℕ) (hk : k < l.length) :
    k + 1 ≤ l.countP (fun x => decide (x ≤ (List.insertionSort (· ≤ ·) l).getD k 0)) := by
  have hperm : (List.insertionSort (· ≤ ·) l).Perm l := List.perm_insertionSort _ l
  have hlen : (List.insertionSort (· ≤ ·) l).length = l.length := hperm.length_eq
  have hk' : k < (List.insertionSort (· ≤ ·) l).length := by omega
  have hsorted : List.Sorted (· ≤ ·) (List.insertionSort (· ≤ ·) l) :=
    List.sorted_insertionSort _ l
  rw [← hperm.countP_eq]
  have hth : (List.insertionSort (· ≤ ·) l).getD k 0 =
      (List.insertionSort (· ≤ ·) l)[k] := List.getD_eq_getElem _ 0 hk'
  have hlen_take : ((List.insertionSort (· ≤ ·) l).take (k + 1)).length = k + 1 := by
    rw [List.length_take]
    omega
  have htake : ((List.insertionSort (· ≤ ·) l).take (k + 1)).countP
      (fun x => decide (x ≤ (List.insertionSort (· ≤ ·) l).getD k 0)) = k + 1 := by
    rw [List.countP_eq_length.mpr, hlen_take]
    intro a ha
    obtain ⟨i, hi, hai⟩ := List.mem_iff_getElem.mp ha
    have hik : i < k + 1 := by omega
    have hilen : i < (List.insertionSort (· ≤ ·) l).length := by omega
    have hgt : ((List.insertionSort (· ≤ ·) l).take (k + 1))[i] =
        (List.insertionSort (· ≤ ·) l)[i] := List.getElem_take _
    have hle : (List.insertionSort (· ≤ ·) l)[i] ≤ (List.insertionSort (· ≤ ·) l)[k] := by
      rcases Nat.lt_or_ge i k with hik' | hik'
      · exact List.pairwise_iff_getElem.mp hsorted i k hilen hk' hik'
      · have : i = k := by omega
        subst this
        exact le_refl _
    rw [← hai, hgt, hth]
    simpa using hle
  calc k + 1 = ((List.insertionSort (· ≤ ·) l).take (k + 1)).countP
        (fun x => decide (x ≤ (List.insertionSort (· ≤ ·) l).getD k 0)) := htake.symm
    _ ≤ (List.insertionSort (· ≤ ·) l).countP
        (fun x => decide (x ≤ (List.insertionSort (· ≤ ·) l).getD k 0)) :=
      (List.take_sublist (k + 1) _).countP_le _

/-- The unstructured threshold mask of a block marks at least
`int(numel * sparsity) + 1` entries. -/
theorem initMask_count (W1 Hinv1 : QMat) (r cnt : ℕ) (s : ℚ)
    (hk : (⌊((r * cnt : ℕ) : ℚ) * s⌋).toNat < r * cnt) :
    (⌊((r * cnt : ℕ) : ℚ) * s⌋).toNat + 1 ≤
      ∑ rr ∈ Finset.range r, ((Finset.range cnt).filter
        (fun j => initMask W1 Hinv1 r cnt s 0 rr j = true)).card := by
  have hrow : ∀ rr, ((Finset.range cnt).filter
      (fun j => initMask W1 Hinv1 r cnt s 0 rr j = true)).card =
      ((List.range cnt).map (sgptScoreAt W1 Hinv1 rr)).countP
        (fun x => decide (x ≤ sgptThresh W1 Hinv1 r cnt s)) := by
    intro rr
    rw [card_filter_range_eq_countP, List.countP_map]
    congr 1
    funext j
    simp [initMask, Function.comp]
  have hflat : (sgptFlatScores W1 Hinv1 r cnt).countP
      (fun x => decide (x ≤ sgptThresh W1 Hinv1 r cnt s)) =
      ∑ rr ∈ Finset.range r, ((Finset.range cnt).filter
        (fun j => initMask W1 Hinv1 r cnt s 0 rr j = true)).card := by
    unfold sgptFlatScores
    rw [List.countP_flatMap, finset_sum_range_eq_list_sum]
    refine congrArg List.sum ?_
    apply List.map_congr_left
    intro rr _
    rw [hrow rr]
    rfl
  rw [← hflat]
  have hklen : (⌊((r * cnt : ℕ) : ℚ) * s⌋).toNat < (sgptFlatScores W1 Hinv1 r cnt).length := by
    rw [sgptFlatScores_length]
    exact hk
  exact countP_le_sorted_thresh (sgptFlatScores W1 Hinv1 r cnt) _ hklen

/-- C2 (amended): in the unstructured branch, each processed block of
`numel = rows * count` weight entries ends with at least
`int(numel * sparsity) + 1` exactly-zero entries (the threshold is the
entry at that sorted index, and everything at or below it is pruned);
score ties at the threshold, or surviving weights that happen to equal
zero, can push the count strictly above this — so the zero fraction is
bounded below by the block-rounded sparsity but not, in general, bounded
above within one block's rounding. -/
theorem fasterprune_unstructured_block_zeros
    (P : QMat → QMat) (r c : ℕ) (W H : QMat) (s percdamp : ℚ) (pm B : ℕ)
    (_hdead : ∀ j, j < c → H j j ≠ 0)
    (t : ℕ) (hB : 0 < B) (ht : t < numBlocks c B)
    (i1 cnt k : ℕ) (hi1 : i1 = t * B) (hcnt : cnt = min (i1 + B) c - i1)
    (hk : k = (⌊((r * cnt : ℕ) : ℚ) * s⌋).toNat) (hkr : k < r * cnt) :
    k + 1 ≤ blockZeroCount (fasterprune P r c W H s 0 pm B percdamp) r i1 cnt := by
  subst hi1
  subst hcnt
  subst hk
  have hout : ∀ rr j, j < min (t * B + B) c - t * B →
      initMask
        (fun rr' j' =>
          runBlocks (sgptHinv P H c percdamp) r c B s 0 pm (sgptNeutralizeW H W c) t
            rr' (t * B + j'))
        (blockHinv1 (sgptHinv P H c percdamp) (t * B)) r
        (min (t * B + B) c - t * B) s 0 rr j = true →
      fasterprune P r c W H s 0 pm B percdamp rr (t * B + j) = 0 := by
    intro rr j hj hm
    rw [fasterprune_block_out P r c W H s 0 pm B percdamp hB t ht j rr hj]
    exact loopA_Q1_zero_of_mask _ _ pm _ rr j hj hm
  refine le_trans
    (initMask_count
      (fun rr' j' =>
        runBlocks (sgptHinv P H c percdamp) r c B s 0 pm (sgptNeutralizeW H W c) t
          rr' (t * B + j'))
      (blockHinv1 (sgptHinv P H c percdamp) (t * B)) r (min (t * B + B) c - t * B) s hkr)
    ?_
  unfold blockZeroCount
  refine Finset.sum_le_sum ?_
  intro rr _
  refine Finset.card_le_card ?_
  intro j hj
  rw [Finset.mem_filter] at hj ⊢
  exact ⟨hj.1, hout rr j (Finset.mem_range.mp hj.1) hj.2⟩

/-- The identity statistic: every diagonal entry is `1`, so no input
feature is dead. -/
def cI : QMat := fun a b => if a = b then 1 else 0

theorem topkSmallest_length (k width : ℕ) (score : ℕ → ℚ) (h : k ≤ width) :
    (topkSmallest k width score).length = k := by
  unfold topkSmallest
  rw [List.length_take, List.length_insertionSort, List.length_range]
  omega

theorem topkSmallest_nodup (k width : ℕ) (score : ℕ → ℚ) :
    (topkSmallest k width score).Nodup :=
  List.Nodup.sublist (List.take_sublist _ _)
    (((List.perm_insertionSort _ _).nodup_iff).mpr (List.nodup_range width))

theorem topkSmallest_lt (k width : ℕ) (score : ℕ → ℚ) (x : ℕ)
    (hx : x ∈ topkSmallest k width score) : x < width := by
  unfold topkSmallest at hx
  have hx2 := (List.take_sublist _ _).subset hx
  have hx3 := (List.perm_insertionSort _ _).mem_iff.mp hx2
  exact List.mem_range.mp hx3

theorem innerStep_mask_lower (Hinv1 : QMat) (cnt pn pm i : ℕ) (st : BState)
    (rr j : ℕ) (hj : j < i) :
    (innerStep Hinv1 cnt pn pm i st).mask1 rr j = st.mask1 rr j := by
  by_cases h : pn ≠ 0 ∧ i % pm = 0
  · have hns : (innerStep Hinv1 cnt pn pm i st).mask1 =
        scatterStep Hinv1 cnt pn pm i st := by
      simp [innerStep, h]
    rw [hns]
    unfold scatterStep
    have hnm : j ∉ (topkSmallest pn (min (i + pm) cnt - i)
        (groupScore st.W1 Hinv1 rr i)).map (i + ·) := by
      intro hmem
      obtain ⟨u, _, hu⟩ := List.mem_map.mp hmem
      omega
    rw [if_neg hnm]
  · rw [innerStep_mask_no_scatter Hinv1 cnt pn pm i st h]

theorem loopA_mask_scatter (Hinv1 : QMat) (cnt pn pm : ℕ) (st0 : BState)
    (go u rr : ℕ) (hpn : pn ≠ 0) (hgo : go % pm = 0)
    (hu : u ∈ topkSmallest pn (min (go + pm) cnt - go)
      (groupScore (loopA Hinv1 cnt pn pm st0 go).W1 Hinv1 rr go)) :
    (loopA Hinv1 cnt pn pm st0 (go + 1)).mask1 rr (go + u) = true := by
  show (innerStep Hinv1 cnt pn pm go (loopA Hinv1 cnt pn pm st0 go)).mask1
    rr (go + u) = true
  have hcond : pn ≠ 0 ∧ go % pm = 0 := ⟨hpn, hgo⟩
  have hm : (innerStep Hinv1 cnt pn pm go (loopA Hinv1 cnt pn pm st0 go)).mask1 =
      scatterStep Hinv1 cnt pn pm go (loopA Hinv1 cnt pn pm st0 go) := by
    simp [innerStep, hcond]
  rw [hm]
  unfold scatterStep
  rw [if_pos (List.mem_map.mpr ⟨u, hu, rfl⟩)]

theorem loopA_mask_persist (Hinv1 : QMat) (cnt pn pm : ℕ) (st0 : BState)
    (jcol rr q₀ : ℕ) :
    ∀ q₁, q₀ ≤ q₁ →
      (∀ i, q₀ ≤ i → i < q₁ → ¬ (pn ≠ 0 ∧ i % pm = 0)) →
      (loopA Hinv1 cnt pn pm st0 q₀).mask1 rr jcol = true →
      (loopA Hinv1 cnt pn pm st0 q₁).mask1 rr jcol = true := by
  intro q₁
  induction q₁ with
  | zero =>
    intro hle _ hm
    have hq : q₀ = 0 := by omega
    subst hq
    exact hm
  | succ q₁ ih =>
    intro hle hns hm
    rcases Nat.lt_or_ge q₀ (q₁ + 1) with hlt | hge
    · have hq1 : q₀ ≤ q₁ := by omega
      have hstep : loopA Hinv1 cnt pn pm st0 (q₁ + 1) =
          innerStep Hinv1 cnt pn pm q₁ (loopA Hinv1 cnt pn pm st0 q₁) := rfl
      rw [hstep, innerStep_mask_no_scatter Hinv1 cnt pn pm q₁ _
        (hns q₁ (by omega) (by omega))]
      exact ih hq1 (fun i h1 h2 => hns i h1 (by omega)) hm
    · have hq : q₀ = q₁ + 1 := by omega
      subst hq
      exact hm

theorem loopA_mask_group (Hinv1 : QMat) (cnt pn pm : ℕ) (st0 : BState)
    (go u rr : ℕ) (hpn : pn ≠ 0) (hgo : go % pm = 0) (hu : u < pm)
    (hmem : u ∈ topkSmallest pn (min (go + pm) cnt - go)
      (groupScore (loopA Hinv1 cnt pn pm st0 go).W1 Hinv1 rr go)) :
    (loopA Hinv1 cnt pn pm st0 (go + u + 1)).mask1 rr (go + u) = true := by
  have h1 := loopA_mask_scatter Hinv1 cnt pn pm st0 go u rr hpn hgo hmem
  refine loopA_mask_persist Hinv1 cnt pn pm st0 (go + u) rr (go + 1) (go + u + 1)
    (by omega) ?_ h1
  intro i h1i h2i
  rintro ⟨_, hmod⟩
  obtain ⟨k, hk⟩ := Nat.dvd_of_mod_eq_zero hgo
  have hi : i = pm * k + (i - go) := by omega
  rw [hi, Nat.mul_add_mod] at hmod
  rw [Nat.mod_eq_of_lt (by omega : i - go < pm)] at hmod
  omega

theorem loopA_Q1_zero_of_group (Hinv1 : QMat) (cnt pn pm : ℕ) (st0 : BState)
    (go u rr : ℕ) (hpn : pn ≠ 0) (hgo : go % pm = 0) (hu : u < pm)
    (hcnt : go + u < cnt)
    (hmem : u ∈ topkSmallest pn (min (go + pm) cnt - go)
      (groupScore (loopA Hinv1 cnt pn pm st0 go).W1 Hinv1 rr go)) :
    (loopA Hinv1 cnt pn pm st0 cnt).Q1 rr (go + u) = 0 := by
  rw [loopA_Q1_stable Hinv1 cnt pn pm st0 (go + u) rr cnt hcnt, loopA_Q1_self,
    loopA_mask_group Hinv1 cnt pn pm st0 go u rr hpn hgo hu hmem]
  simp

/-- C4 (amended): with `prunen = n > 0` and `n ≤ m`, every complete N:M
group — `m` consecutive columns starting at an offset divisible by `m`
inside one processed block — ends with at least `n` zeros in every row:
the `topk` scatter marks exactly `n` distinct columns of the group, and
each marked column is committed as `0`.  `exactly n` can fail, since an
unmarked surviving weight can itself be zero (for instance after
dead-feature neutralization zeroes whole columns). -/
theorem fasterprune_nm_group_zeros
    (P : QMat → QMat) (r c : ℕ) (W H : QMat) (s percdamp : ℚ) (n m B : ℕ)
    (hn : 0 < n) (hnm : n ≤ m)
    (t : ℕ) (hB : 0 < B) (ht : t < numBlocks c B)
    (i1 cnt : ℕ) (hi1 : i1 = t * B) (hcnt : cnt = min (i1 + B) c - i1)
    (go : ℕ) (hgo : go % m = 0) (hgm : go + m ≤ cnt) (rr : ℕ) :
    n ≤ ((Finset.range m).filter
        (fun u => fasterprune P r c W H s n m B percdamp rr (i1 + go + u) = 0)).card := by
  subst hi1
  subst hcnt
  have hwidth : min (go + m) (min (t * B + B) c - t * B) - go = m := by omega
  have hS := topkSmallest_length n (min (go + m) (min (t * B + B) c - t * B) - go)
    (groupScore
      (loopA (blockHinv1 (sgptHinv P H c percdamp) (t * B))
        (min (t * B + B) c - t * B) n m
        (blockInit (sgptHinv P H c percdamp) r c B s n
          (runBlocks (sgptHinv P H c percdamp) r c B s n m (sgptNeutralizeW H W c) t)
          (t * B)) go).W1
      (blockHinv1 (sgptHinv P H c percdamp) (t * B)) rr go)
    (by omega)
  set S := topkSmallest n (min (go + m) (min (t * B + B) c - t * B) - go)
    (groupScore
      (loopA (blockHinv1 (sgptHinv P H c percdamp) (t * B))
        (min (t * B + B) c - t * B) n m
        (blockInit (sgptHinv P H c percdamp) r c B s n
          (runBlocks (sgptHinv P H c percdamp) r c B s n m (sgptNeutralizeW H W c) t)
          (t * B)) go).W1
      (blockHinv1 (sgptHinv P H c percdamp) (t * B)) rr go) with hSdef
  have hSlt : ∀ u ∈ S, u < m := by
    intro u hu
    have := topkSmallest_lt _ _ _ u hu
    omega
  have hzero : ∀ u ∈ S, fasterprune P r c W H s n m B percdamp rr (t * B + go + u) = 0 := by
    intro u hu
    have hju : go + u < min (t * B + B) c - t * B := by
      have := hSlt u hu
      omega
    rw [Nat.add_assoc,
      fasterprune_block_out P r c W H s n m B percdamp hB t ht (go + u) rr hju]
    exact loopA_Q1_zero_of_group _ _ n m _ go u rr (by omega) hgo (hSlt u hu) hju hu
  calc n = S.length := hS.symm
    _ = S.toFinset.card := (List.toFinset_card_of_nodup (topkSmallest_nodup _ _ _)).symm
    _ ≤ _ := by
      refine Finset.card_le_card ?_
      intro u hu
      have huS : u ∈ S := List.mem_toFinset.mp hu
      rw [Finset.mem_filter]
      exact ⟨Finset.mem_range.mpr (hSlt u huS), hzero u huS⟩

/-- A column loop run on a row whose block columns are all zero keeps
them zero and commits zeros: masked columns are zeroed outright and
unmasked ones keep their (zero) value, with zero propagated error. -/
theorem loopA_zero_row (Hinv1 : QMat) (cnt pn pm : ℕ) (st0 : BState) (rr : ℕ)
    (hW : ∀ j, j < cnt → st0.W1 rr j = 0) :
    ∀ q, q ≤ cnt →
      (∀ j, j < cnt → (loopA Hinv1 cnt pn pm st0 q).W1 rr j = 0) ∧
        (∀ j, j < q → (loopA Hinv1 cnt pn pm st0 q).Q1 rr j = 0) := by
  intro q
  induction q with
  | zero => exact fun _ => ⟨hW, by omega⟩
  | succ q ih =>
    intro hq
    have ihq := ih (by omega)
    have hw0 : (loopA Hinv1 cnt pn pm st0 q).W1 rr q = 0 := ihq.1 q (by omega)
    constructor
    · intro j hj
      have hj0 : (loopA Hinv1 cnt pn pm st0 q).W1 rr j = 0 := ihq.1 j hj
      show (innerStep Hinv1 cnt pn pm q (loopA Hinv1 cnt pn pm st0 q)).W1 rr j = 0
      simp only [innerStep]
      rw [hj0, hw0]
      by_cases hg : q ≤ j ∧ j < cnt
      · simp [hg]
      · simp [hg]
    · intro j hj
      rcases Nat.lt_or_ge j q with hlt | hge
      · show (innerStep Hinv1 cnt pn pm q (loopA Hinv1 cnt pn pm st0 q)).Q1 rr j = 0
        rw [innerStep_Q1_ne Hinv1 cnt pn pm q _ rr j (by omega)]
        exact ihq.2 j hlt
      · have hjq : j = q := by omega
        subst hjq
        show (innerStep Hinv1 cnt pn pm j (loopA Hinv1 cnt pn pm st0 j)).Q1 rr j = 0
        simp only [innerStep]
        rw [hw0]
        simp

/-- The all-zero statistic: every input feature is dead. -/
def cH0 : QMat := fun _ _ => 0

/-- C4 (counterexample to the original claim): on a layer whose statistic
is all-zero, every input feature is dead, so the whole weight matrix is
zeroed before the block loop and every committed column is zero.  After
`fasterprune(prunen=1, prunem=2)` the single group of 2 columns holds 2
zeros, not exactly `n = 1`. -/
theorem fasterprune_nm_counterexample :
    ((Finset.range 2).filter
        (fun u => fasterprune id 1 2 cW7 cH0 0 1 2 2 0 0 (0 + 0 + u) = 0)).card = 2 ∧
      (2 : ℕ) ≠ 1 := by
  have hW0 : ∀ j, j < min (0 * 2 + 2) 2 - 0 * 2 →
      (blockInit (sgptHinv id cH0 2 0) 1 2 2 0 1
        (runBlocks (sgptHinv id cH0 2 0) 1 2 2 0 1 2 (sgptNeutralizeW cH0 cW7 2) 0)
        (0 * 2)).W1 0 j = 0 := by
    intro j hj
    show sgptNeutralizeW cH0 cW7 2 0 (0 * 2 + j) = 0
    have hj2 : 0 * 2 + j < 2 := by omega
    have hj3 : j < 2 := by omega
    simp [sgptNeutralizeW, cH0, hj2, hj3]
  have hzero : ∀ u, u < 2 → fasterprune id 1 2 cW7 cH0 0 1 2 2 0 0 (0 + 0 + u) = 0 := by
    intro u hu
    have hju : u < min (0 * 2 + 2) 2 - 0 * 2 := by omega
    have h := fasterprune_block_out id 1 2 cW7 cH0 0 1 2 2 0 (by decide) 0
      (by decide) u 0 hju
    show fasterprune id 1 2 cW7 cH0 0 1 2 2 0 0 (0 * 2 + u) = 0
    rw [h]
    exact (loopA_zero_row _ _ 1 2 _ 0 hW0 _ (le_refl _)).2 u hju
  refine ⟨?_, by decide⟩
  rw [Finset.filter_true_of_mem (fun u hu => hzero u (Finset.mem_range.mp hu))]
  simp

/-- Witness for the amended C4: a 1×2 layer, `H = I`, identity pipeline,
`prunen = 1`, `prunem = 2`, one block and one complete group. -/
theorem fasterprune_nm_group_zeros_witness :
    (0 : ℕ) < 1 ∧ (1 : ℕ) ≤ 2 ∧
      1 ≤ ((Finset.range 2).filter
        (fun u => fasterprune id 1 2 cW7 cI 0 1 2 2 0 0 (0 + 0 + u) = 0)).card :=
  ⟨by decide, by decide,
    fasterprune_nm_group_zeros id 1 2 cW7 cI 0 0 1 2 2 (by decide) (by decide) 0
      (by decide) (by decide) 0 2 rfl rfl 0 rfl (by decide) 0⟩

/-- C2 (counterexample to the original claim): a 1×3 layer with equal
weights and `H = I` has no dead feature, and all three block scores tie;
`fasterprune(sparsity=1/3)` therefore zeroes all 3 of 3 weights — the
zero fraction is 1, exceeding `s = 1/3` by two entries in a single block,
beyond any one-block rounding of `s` (its rounded target is
`int(3 * 1/3) + 1 = 2`). -/
theorem fasterprune_unstructured_ties_counterexample :
    (∀ j, j < 3 → cI j j ≠ 0) ∧
      blockZeroCount (fasterprune id 1 3 cW7 cI (1/3) 0 0 4 0) 1 0 3 = 3 ∧
      ¬ (blockZeroCount (fasterprune id 1 3 cW7 cI (1/3) 0 0 4 0) 1 0 3 ≤
          (⌊((1 * 3 : ℕ) : ℚ) * (1/3)⌋).toNat + 1) := by
  have hscore : ∀ rr j, j < 3 →
      sgptScoreAt (fun rr' j' => sgptNeutralizeW cI cW7 3 rr' j')
        (blockHinv1 (sgptHinv id cI 3 0) 0) rr j = 49 := by
    intro rr j hj
    unfold sgptScoreAt blockHinv1 sgptHinv sgptDampedH sgptNeutralizeH sgptDamp
      sgptNeutralizeW
    simp [cI, cW7, hj]
    norm_num
  have hthresh :
      sgptThresh (fun rr' j' => sgptNeutralizeW cI cW7 3 rr' j')
        (blockHinv1 (sgptHinv id cI 3 0) 0) 1 3 (1/3) = 49 := by
    unfold sgptThresh
    have hflat : sgptFlatScores
        (fun rr' j' => sgptNeutralizeW cI cW7 3 rr' j')
        (blockHinv1 (sgptHinv id cI 3 0) 0) 1 3 = [49, 49, 49] := by
      unfold sgptFlatScores
      rw [show List.range 1 = [0] from rfl, show List.range 3 = [0, 1, 2] from rfl]
      simp [hscore 0 0 (by norm_num), hscore 0 1 (by norm_num), hscore 0 2 (by norm_num)]
    rw [hflat]
    norm_num [List.insertionSort, List.orderedInsert]
  have hmask : ∀ j, j < 3 →
      initMask (fun rr' j' => sgptNeutralizeW cI cW7 3 rr' j')
        (blockHinv1 (sgptHinv id cI 3 0) 0) 1 3 (1/3) 0 0 j = true := by
    intro j hj
    show decide (sgptScoreAt (fun rr' j' => sgptNeutralizeW cI cW7 3 rr' j')
        (blockHinv1 (sgptHinv id cI 3 0) 0) 0 j ≤
      sgptThresh (fun rr' j' => sgptNeutralizeW cI cW7 3 rr' j')
        (blockHinv1 (sgptHinv id cI 3 0) 0) 1 3 (1/3)) = true
    rw [hscore 0 j hj, hthresh]
    simp
  have hW10eq : (fun rr' (j' : ℕ) =>
      runBlocks (sgptHinv id cI 3 0) 1 3 4 (1/3) 0 0 (sgptNeutralizeW cI cW7 3) 0
        rr' (0 * 4 + j')) =
      (fun rr' j' => sgptNeutralizeW cI cW7 3 rr' j') := by
    funext rr' j'
    show sgptNeutralizeW cI cW7 3 rr' (0 * 4 + j') = sgptNeutralizeW cI cW7 3 rr' j'
    norm_num
  have hzero : ∀ j, j < 3 → fasterprune id 1 3 cW7 cI (1/3) 0 0 4 0 0 (0 + j) = 0 := by
    intro j hj
    have hj2 : j < min (0 * 4 + 4) 3 - 0 * 4 := by omega
    have h := fasterprune_block_out id 1 3 cW7 cI (1/3) 0 0 4 0 (by decide) 0
      (by decide) j 0 hj2
    show fasterprune id 1 3 cW7 cI (1/3) 0 0 4 0 0 (0 * 4 + j) = 0
    rw [h]
    refine loopA_Q1_zero_of_mask _ _ 0 _ 0 j hj2 ?_
    show initMask (fun rr' (j' : ℕ) =>
        runBlocks (sgptHinv id cI 3 0) 1 3 4 (1/3) 0 0 (sgptNeutralizeW cI cW7 3) 0
          rr' (0 * 4 + j'))
      (blockHinv1 (sgptHinv id cI 3 0) 0) 1 3 (1/3) 0 0 j = true
    rw [hW10eq]
    exact hmask j hj
  have hcount : blockZeroCount (fasterprune id 1 3 cW7 cI (1/3) 0 0 4 0) 1 0 3 = 3 := by
    unfold blockZeroCount
    rw [Finset.sum_range_one,
      Finset.filter_true_of_mem (fun j hj => hzero j (Finset.mem_range.mp hj))]
    simp
  refine ⟨fun j _ => by simp [cI], hcount, ?_⟩
  rw [hcount]
  norm_num

/-- Witness for the amended C2 on a 1×2 layer, `H = I`, identity
pipeline, `sparsity = 1/3`, one block: at least one weight is zeroed. -/
theorem fasterprune_unstructured_block_zeros_witness :
    (∀ j, j < 2 → cI j j ≠ 0) ∧ (0 : ℕ) < numBlocks 2 2 ∧
      0 + 1 ≤ blockZeroCount (fasterprune id 1 2 cW7 cI (1/3) 0 0 2 0) 1 0 2 :=
  ⟨fun j _ => by simp [cI], by decide,
    fasterprune_unstructured_block_zeros id 1 2 cW7 cI (1/3) 0 0 2
      (fun j _ => by simp [cI]) 0 (by decide) (by decide) 0 2 0 rfl rfl
      (by norm_num) (by norm_num)⟩

/-! ## KV-cache graph transform (`AddKeyValueCache.transform`)

The ONNX data model and the live code of
`src/sparseml/exporters/transforms/add_kv_cache.py` are embedded below.
`get_structural_matches` and `ONNXGraph` live in repository modules that
are not part of the provided sources, so the graph-query engine is
modelled from the specification's Graph Query Engine contract. -/

/-- An ONNX `NodeProto`: name, operator type, ordered input and output
tensor names. -/
structure ONNXNode where
  name : PyName
  op : PyName
  inputs : List PyName
  outputs : List PyName
deriving DecidableEq

/-- An ONNX `ValueInfoProto` as built by
`onnx.helper.make_tensor_value_info(name, elem_type, shape)`. -/
structure ValueInfo where
  name : PyName
  elemType : ℕ
  dims : List ℕ
deriving DecidableEq

/-- An ONNX `GraphProto`: node list (in topological order), graph inputs
and graph outputs. -/
structure ONNXGraph where
  nodes : List ONNXNode
  inputs : List ValueInfo
  outputs : List ValueInfo
deriving DecidableEq

/-- Modelled from the spec: the single producer of a tensor name, found
by scanning the node list (`get_structural_matches` walks producer edges
backward; a graph input or initializer has no producing node). -/
def producerOf (nodes : List ONNXNode) (t : PyName) : Option ONNXNode :=
  nodes.find? (fun nd => t ∈ nd.outputs)

/-- Modelled from the spec: the consumers of a node — every node reading
one of its output tensors. -/
def consumersOf (nodes : List ONNXNode) (nd : ONNXNode) : List ONNXNode :=
  nodes.filter (fun m => nd.outputs.any (fun o => m.inputs.contains o))

/-- Modelled from the spec: walk one required parent op-type chain
backward from a node through producer edges; a chain position with zero
or more than one matching neighbor is no match. -/
def walkParents (nodes : List ONNXNode) (nd : ONNXNode) : List PyName → Option (List ONNXNode)
  | [] => some []
  | op :: rest =>
    match (nd.inputs.filterMap (producerOf nodes)).filter (fun p => p.op == op) with
    | [p] => (walkParents nodes p rest).map (fun l => p :: l)
    | _ => none

/-- Modelled from the spec: walk one required child op-type chain forward
through consumer edges; ambiguous fan-out is no match. -/
def walkChildren (nodes : List ONNXNode) (nd : ONNXNode) : List PyName → Option (List ONNXNode)
  | [] => some []
  | op :: rest =>
    match (consumersOf nodes nd).filter (fun p => p.op == op) with
    | [p] => (walkChildren nodes p rest).map (fun l => p :: l)
    | _ => none

/-- A Structural Match: the center node with its matched parent chains
and child chains. -/
structure SMatch where
  node : ONNXNode
  parents : List (List ONNXNode)
  children : List (List ONNXNode)
deriving DecidableEq

/-- Modelled from the spec: `get_structural_matches(graph, op_type,
parent_ops, children_ops)` — every node of the required operator type
whose parent and child chains all match, in graph node order. -/
def structuralMatches (g : ONNXGraph) (opType : PyName)
    (parentOps childrenOps : List (List PyName)) : List SMatch :=
  g.nodes.filterMap (fun nd =>
    if nd.op == opType then
      match parentOps.mapM (walkParents g.nodes nd),
          childrenOps.mapM (walkChildren g.nodes nd) with
      | some ps, some cs => some ⟨nd, ps, cs⟩
      | _, _ => none
    else none)

/-- The operator names of `GATHER_MATCHING_RULE_KEY`. -/
def opGather : PyName := "Gather".data

def opShape : PyName := "Shape".data

def opAdd : PyName := "Add".data

def opCast : PyName := "Cast".data

def opRange : PyName := "Range".data

/-- `match.node.name.endswith('15')`. -/
def kvNameSuffix : PyName := "15".data

/-- The hard-coded decoder layer count of the `assert`. -/
def expectedMatchCount : ℕ := 20

def cacheLengthName : PyName := "cache_length".data

/-- `onnx.helper.make_tensor_value_info("cache_length", INT64, ())`:
a scalar int64 graph input (`onnx.TensorProto.INT64 = 7`). -/
def cacheLengthVI : ValueInfo :=
  { name := cacheLengthName, elemType := 7, dims := [] }

/-- The `AssertionError` of `assert len(gather_nodes) == 20`. -/
def assertionErrorMsg : PyName := "AssertionError".data

/-- The `Gather` matches of `AddKeyValueCache.transform`, after the
name filter. -/
def kvGatherMatches (g : ONNXGraph) : List SMatch :=
  (structuralMatches g opGather [[opShape]] [[opAdd, opCast, opRange]]).filter
    (fun mt => kvNameSuffix.isSuffixOf mt.node.name)

/-- `AddKeyValueCache.transform(model)`: match the Gather pattern, keep
matches whose node name ends in `'15'`, assert exactly 20 of them,
insert the scalar `cache_length` graph input before the last input
(Python `list.insert(-1, ·)`), and rewire input 1 of each matched `Add`
node (`match.children[0][0]`) to `cache_length`.  Nodes are addressed by
their (unique) names, standing in for Python object identity. -/
def addKeyValueCacheTransform (g : ONNXGraph) : Except PyName ONNXGraph :=
  if (kvGatherMatches g).length = expectedMatchCount then
    let addNames := (kvGatherMatches g).filterMap
      (fun mt => ((mt.children.headD []).head?).map (fun nd => nd.name))
    Except.ok
      { g with
        inputs := g.inputs.insertIdx (g.inputs.length - 1) cacheLengthVI
        nodes := g.nodes.map (fun nd =>
          if nd.name ∈ addNames then { nd with inputs := nd.inputs.set 1 cacheLengthName }
          else nd) }
  else Except.error assertionErrorMsg

/-- C6: the transform succeeds exactly when the filtered match count
equals the expected decoder layer count; otherwise the assert raises and
no graph is produced. -/
theorem addKeyValueCache_count_guard (g : ONNXGraph) :
    (addKeyValueCacheTransform g).isOk =
      decide ((kvGatherMatches g).length = expectedMatchCount) := by
  unfold addKeyValueCacheTransform
  by_cases h : (kvGatherMatches g).length = expectedMatchCount
  · rw [if_pos h, decide_eq_true h]
    rfl
  · rw [if_neg h, decide_eq_false h]
    rfl

/-- C1 (amended): on a graph passing the count check, the transform adds
exactly one graph input — the scalar `cache_length`, inserted before the
last input — and leaves the graph outputs and the node list length
unchanged: no per-layer cache inputs, cache outputs or concatenation
nodes are introduced. -/
theorem addKeyValueCache_single_input (g : ONNXGraph)
    (h : (kvGatherMatches g).length = expectedMatchCount) :
    ∃ g', addKeyValueCacheTransform g = Except.ok g' ∧
      g'.inputs = g.inputs.insertIdx (g.inputs.length - 1) cacheLengthVI ∧
      g'.outputs = g.outputs ∧
      g'.nodes.length = g.nodes.length := by
  unfold addKeyValueCacheTransform
  rw [if_pos h]
  exact ⟨_, rfl, rfl, rfl, List.length_map _ _⟩

/-- C5 (amended): every successful application maps each node to one
with the same operator type (no node, in particular no concatenation, is
ever inserted), and appends one more `cache_length` graph input: a
second successful application therefore duplicates `cache_length`
instead of being rejected or a no-op. -/
theorem addKeyValueCache_no_insertions (g g' : ONNXGraph)
    (h : addKeyValueCacheTransform g = Except.ok g') :
    g'.nodes.map (fun nd => nd.op) = g.nodes.map (fun nd => nd.op) ∧
      g'.inputs.length = g.inputs.length + 1 ∧
      g'.inputs.countP (fun vi => vi.name == cacheLengthName) =
        g.inputs.countP (fun vi => vi.name == cacheLengthName) + 1 := by
  unfold addKeyValueCacheTransform at h
  by_cases hc : (kvGatherMatches g).length = expectedMatchCount
  · rw [if_pos hc] at h
    cases h
    refine ⟨?_, ?_, ?_⟩
    · rw [List.map_map]
      refine List.map_congr_left ?_
      intro nd _
      show (if nd.name ∈ (kvGatherMatches g).filterMap
            (fun mt => ((mt.children.headD []).head?).map (fun nd => nd.name))
          then { nd with inputs := nd.inputs.set 1 cacheLengthName } else nd).op = nd.op
      rw [apply_ite (fun x : ONNXNode => x.op)]
      exact ite_self _
    · exact List.length_insertIdx _ _ (by omega)
    · have hperm := List.perm_insertIdx cacheLengthVI g.inputs
        (n := g.inputs.length - 1) (by omega)
      rw [hperm.countP_eq, List.countP_cons]
      simp [cacheLengthVI]
  · rw [if_neg hc] at h
    exact Except.noConfusion h

/-- One decoder layer's position-offset pattern, tagged by a distinct
letter: `Shape → Gather("g·15") → Add → Cast → Range`, with the Gather's
second input and the Add's second input fed by producer-less tensors. -/
def kvChain (i : ℕ) : List ONNXNode :=
  [ { name := ['s', Char.ofNat (65 + i)], op := opShape,
      inputs := [['x']], outputs := [['S', Char.ofNat (65 + i)]] },
    { name := ['g', Char.ofNat (65 + i), '1', '5'], op := opGather,
      inputs := [['S', Char.ofNat (65 + i)], ['I', Char.ofNat (65 + i)]],
      outputs := [['G', Char.ofNat (65 + i)]] },
    { name := ['a', Char.ofNat (65 + i)], op := opAdd,
      inputs := [['G', Char.ofNat (65 + i)], ['K', Char.ofNat (65 + i)]],
      outputs := [['A', Char.ofNat (65 + i)]] },
    { name := ['c', Char.ofNat (65 + i)], op := opCast,
      inputs := [['A', Char.ofNat (65 + i)]],
      outputs := [['C', Char.ofNat (65 + i)]] },
    { name := ['r', Char.ofNat (65 + i)], op := opRange,
      inputs := [['C', Char.ofNat (65 + i)]],
      outputs := [['R', Char.ofNat (65 + i)]] } ]

/-- A 20-layer decoder graph exhibiting the matched pattern once per
layer, with one graph input and one graph output. -/
def g20 : ONNXGraph :=
  { nodes := (List.range 20).flatMap kvChain
    inputs := [{ name := ['x'], elemType := 1, dims := [] }]
    outputs := [{ name := ['y'], elemType := 1, dims := [] }] }

theorem g20_match_count : (kvGatherMatches g20).length = expectedMatchCount := by decide

/-- C1 (counterexample to the original claim): on the 20-layer graph the
transform succeeds, yet the result has 2 graph inputs (the original one
plus `cache_length`) and the single original output — not the
`20` new cache inputs and `20` new cache outputs per cache kind the
claim requires. -/
theorem addKeyValueCache_no_cache_io_counterexample :
    (kvGatherMatches g20).length = 20 ∧ g20.inputs.length = 1 ∧
      g20.outputs.length = 1 ∧
      (addKeyValueCacheTransform g20).toOption.map
        (fun g' => (g'.inputs.length, g'.outputs.length)) = some (2, 1) := by
  refine ⟨g20_match_count, rfl, rfl, ?_⟩
  unfold addKeyValueCacheTransform
  rw [if_pos g20_match_count]
  rfl

/-- Witness for the amended C1 at the 20-layer graph. -/
theorem addKeyValueCache_single_input_witness :
    (kvGatherMatches g20).length = expectedMatchCount ∧
      (∃ g', addKeyValueCacheTransform g20 = Except.ok g' ∧
        g'.inputs = g20.inputs.insertIdx (g20.inputs.length - 1) cacheLengthVI ∧
        g'.outputs = g20.outputs ∧
        g'.nodes.length = g20.nodes.length) :=
  ⟨g20_match_count, addKeyValueCache_single_input g20 g20_match_count⟩

/-- The transformed 20-layer graph. -/
def g20T : ONNXGraph :=
  (addKeyValueCacheTransform g20).toOption.getD g20

/-- C5 (counterexample to the original claim): re-applying the transform
to the already-transformed 20-layer graph neither raises nor leaves the
graph unchanged — the rewired `Add` nodes still consume their `Gather`
parents, so the pattern count is again 20 and a second `cache_length`
graph input is inserted (2 inputs become 3, `cache_length` appears
twice). -/
theorem addKeyValueCache_reapplication_counterexample :
    ((addKeyValueCacheTransform g20).bind addKeyValueCacheTransform).toOption.map
        (fun g2 => (g2.inputs.length,
          g2.inputs.countP (fun vi => vi.name == cacheLengthName))) = some (3, 2) ∧
      (addKeyValueCacheTransform g20).toOption.map
        (fun g1 => (g1.inputs.length,
          g1.inputs.countP (fun vi => vi.name == cacheLengthName))) = some (2, 1) := by
  constructor
  · decide
  · decide

/-- Witness for the amended C5 at the 20-layer graph. -/
theorem addKeyValueCache_no_insertions_witness :
    addKeyValueCacheTransform g20 = Except.ok g20T ∧
      (g20T.nodes.map (fun nd => nd.op) = g20.nodes.map (fun nd => nd.op) ∧
        g20T.inputs.length = g20.inputs.length + 1 ∧
        g20T.inputs.countP (fun vi => vi.name == cacheLengthName) =
          g20.inputs.countP (fun vi => vi.name == cacheLengthName) + 1) := by
  have hok : addKeyValueCacheTransform g20 = Except.ok g20T := by
    unfold g20T
    unfold addKeyValueCacheTransform
    rw [if_pos g20_match_count]
    rfl
  exact ⟨hok, addKeyValueCache_no_insertions g20 g20T hok⟩
